import Mathlib

/-!
# Verification of the tweet-pattern template engine (`repohealth/twitter.py`)

Shallow embedding of the pattern/template engine:

* A template (`Tmpl`) is the parsed form of a Python `.format` string: a list
  of literal segments and `{name}` placeholders, exactly what
  `string.Formatter.parse` yields for the templates in the source.
* `re_match` in the source escapes `?`, `*`, `.` in the template, replaces
  every placeholder with the capturing group `(.*?)` (the `special` override
  mapping is never supplied anywhere in the repository), appends `$`, compiles
  the result with `re.compile` and runs `.match`, i.e. the regex is applied
  anchored at position 0, and `$` accepts the end of the string or a position
  just before a single trailing newline.  We embed the produced regex string
  as a token list (`RItem`) through `escapePy`/`parseLit` and give it Python's
  backtracking semantics (`matchItems`): literal characters match themselves,
  `.` matches any character except `'\n'`, and each non-greedy group `(.*?)`
  tries the shortest newline-free prefix first.
* Rendering (`renderE`/`formatP`) models `str.format(**(extra or {}), **ctx)`:
  duplicate keys between the two keyword unpackings raise `TypeError` before
  `format` runs, a placeholder absent from the merged mapping raises
  `KeyError` (there is no dedicated error class in the source).
-/

/-- One piece of a parsed template: a literal run of characters or a
`{name}` placeholder.  Field names are kept opaque strings, as
`RegexpFormatter.get_field` records them (`names[0]` stays one name). -/
inductive TPart where
  | lit (s : List Char)
  | field (f : String)
deriving DecidableEq, Repr

/-- A template: the parse of one of the `.format`-able pattern strings. -/
abbrev Tmpl := List TPart

/-- One token of the compiled regular expression produced by `re_match`:
a literal character (ordinary or backslash-escaped), the `.` metacharacter,
or the non-greedy capturing group `(.*?)`. -/
inductive RItem where
  | ch (c : Char)
  | dot
  | grp
deriving DecidableEq, Repr

/-- `escape` inside `TweetPattern.re_match`:
`pattern.replace('?', '\\?').replace('*', '\\*').replace('.', '\\.')`.
The three replacements do not interfere (no inserted text contains a later
target), so they amount to escaping each occurrence independently. -/
def escapePy (s : List Char) : List Char :=
  s.flatMap (fun c => if c = '?' ∨ c = '*' ∨ c = '.' then ['\\', c] else [c])

/-- Tokenisation of a literal fragment of the produced regex string, with
Python `re` meaning: `\c` matches `c` literally, a bare `.` is the
any-character metacharacter, any other character matches itself.  (The
fragment grammar covers exactly what escaped template literals contain;
well-formedness `wfT` below excludes the remaining metacharacters, which no
template in the source uses.) -/
def parseLit : List Char → List RItem
  | [] => []
  | c :: rest =>
    if c = '\\' then
      match rest with
      | [] => []
      | c' :: rest' => .ch c' :: parseLit rest'
    else if c = '.' then .dot :: parseLit rest
    else .ch c :: parseLit rest

/-- The compiled regex of `TweetPattern.re_match` as a token list: literal
segments are escaped then tokenised; every placeholder becomes `(.*?)`
(`RegexpFormatter.get_field` with no `special` entry). -/
def compileItems (t : Tmpl) : List RItem :=
  t.flatMap (fun p => match p with
    | .lit s => parseLit (escapePy s)
    | .field _ => [.grp])

/-- `RegexpFormatter.fields`: the field names in order of occurrence
(recorded once per occurrence). -/
def fieldsOf : Tmpl → List String
  | [] => []
  | .lit _ :: rest => fieldsOf rest
  | .field f :: rest => f :: fieldsOf rest

/-- Number of capturing groups in a compiled token list. -/
def countGrp : List RItem → Nat
  | [] => 0
  | .grp :: rest => countGrp rest + 1
  | .ch _ :: rest => countGrp rest
  | .dot :: rest => countGrp rest

/-- Backtracking search for one non-greedy group `(.*?)`: try the shortest
consumed prefix first (Python's lazy quantifier order), never consuming a
newline; `acc` holds the consumed characters in reverse.  `f` is the matcher
for the rest of the regex. -/
def tryAll (f : List Char → Option (List (List Char))) :
    List Char → List Char → Option (List (List Char))
  | acc, [] =>
    match f [] with
    | some gs => some (acc.reverse :: gs)
    | none => none
  | acc, d :: ds =>
    match f (d :: ds) with
    | some gs => some (acc.reverse :: gs)
    | none => if d = '\n' then none else tryAll f (d :: acc) ds

/-- Python matching of the compiled regex against a string, anchored at
position 0 (`re.Pattern.match`) and ending with `$` (which accepts the end of
the string or a lone trailing `'\n'`).  Returns the list of captured groups
on success, mirroring `match.groups()`. -/
def matchItems : List RItem → List Char → Option (List (List Char))
  | [], ds => if ds = [] ∨ ds = ['\n'] then some [] else none
  | .ch _ :: _, [] => none
  | .ch c :: rest, d :: ds => if c = d then matchItems rest ds else none
  | .dot :: _, [] => none
  | .dot :: rest, d :: ds => if d = '\n' then none else matchItems rest ds
  | .grp :: rest, ds => tryAll (fun s => matchItems rest s) [] ds

/-- `TweetPattern.re_match`: compile the template (escape, substitute groups,
append `$`) and match the message from position 0. -/
def re_match (t : Tmpl) (msg : List Char) : Option (List (List Char)) :=
  matchItems (compileItems t) msg

/-- Substituting group strings back into a compiled token list (no `.dot`
tokens).  Used to state what an accepted message must look like. -/
def fillItems : List RItem → List (List Char) → List Char
  | [], _ => []
  | .ch c :: rest, gs => c :: fillItems rest gs
  | .dot :: rest, gs => fillItems rest gs
  | .grp :: rest, [] => fillItems rest []
  | .grp :: rest, g :: gs => g ++ fillItems rest gs

/-- Substituting field values (in `fieldsOf` order) into a template. -/
def templFill : Tmpl → List (List Char) → List Char
  | [], _ => []
  | .lit s :: rest, gs => s ++ templFill rest gs
  | .field _ :: rest, [] => templFill rest []
  | .field _ :: rest, g :: gs => g ++ templFill rest gs

/-- Characters a template literal may not contain for the regex-token model
to be exact: the `re` metacharacters the source's `escape` does not handle
(none occur in any pattern string of the repository), plus newline. -/
def badChar (c : Char) : Bool :=
  c = '\\' || c = '(' || c = ')' || c = '[' || c = ']' || c = '{' ||
  c = '}' || c = '|' || c = '+' || c = '^' || c = '$' || c = '\n'

/-- Well-formed template: literals avoid the unmodelled metacharacters. -/
def wfT (t : Tmpl) : Bool :=
  t.all (fun p => match p with
    | .lit s => s.all (fun c => !(badChar c))
    | .field _ => true)

/-- Python exceptions the embedded code can raise. -/
inductive PyErr where
  | keyError (f : String)
  | typeErrorMultipleValues (k : String)
  | attributeError (a : String)
deriving DecidableEq, Repr

/-- A context / keyword mapping: insertion-ordered association list with the
string rendering of each value (the fields the engine reads are strings or
are rendered to strings by `str.format`). -/
abbrev Ctx := List (String × List Char)

/-- Python `dict` lookup on an association list (first binding wins; the
dicts in the source have unique keys). -/
def ctxFind (k : String) : Ctx → Option (List Char)
  | [] => none
  | (k', v) :: rest => if k = k' then some v else ctxFind k rest

/-- Left-to-right rendering of a template against a lookup function, as
`str.format` performs it: the first placeholder whose name is absent raises
`KeyError`. -/
def renderE : Tmpl → (String → Option (List Char)) → Except PyErr (List Char)
  | [], _ => .ok []
  | .lit s :: rest, look =>
    match renderE rest look with
    | .ok r => .ok (s ++ r)
    | .error e => .error e
  | .field f :: rest, look =>
    match look f with
    | none => .error (.keyError f)
    | some v =>
      match renderE rest look with
      | .ok r => .ok (v ++ r)
      | .error e => .error e

/-- The keyword mapping `{**extra, **context}` (context wins), as the merged
view `str.format` would see when the unpacking succeeds. -/
def mergedLook (ctx extra : Ctx) : String → Option (List Char) :=
  fun f =>
    match ctxFind f ctx with
    | some v => some v
    | none => ctxFind f extra

/-- First key of `context` that also occurs in `extra_context`: building the
call `self.pattern.format(**(extra_context or {}), **context)` merges the two
keyword unpackings and CPython raises
`TypeError: format() got multiple values for keyword argument k`
at the first duplicate. -/
def firstShared (ctx extra : Ctx) : Option String :=
  (ctx.map Prod.fst).find? (fun k => (ctxFind k extra).isSome)

/-- `TweetPattern.format(context, extra_context)`:
`self.pattern.format(**(extra_context or {}), **context)`. -/
def formatP (t : Tmpl) (ctx extra : Ctx) : Except PyErr (List Char) :=
  match firstShared ctx extra with
  | some k => .error (.typeErrorMultipleValues k)
  | none => renderE t (mergedLook ctx extra)

/-- The candidate-rendering loop of `tweet_status`
(`tweet_options.append(pattern.format(context, global_context))` inside the
two `for` loops): the (pattern, context) pairs produced by the
`context` generators are rendered in order, and an uncaught exception from
`format` aborts the whole collection — there is no `try`/`except`. -/
def collectOptions : List (Tmpl × Ctx) → Ctx → Except PyErr (List (List Char))
  | [], _ => .ok []
  | (t, c) :: rest, g =>
    match formatP t c g with
    | .error e => .error e
    | .ok msg =>
      match collectOptions rest g with
      | .error e => .error e
      | .ok msgs => .ok (msg :: msgs)

/-- The classes of the pattern hierarchy in the source:
`TweetPattern`, `NReposInCachePattern`, `RepoTweet`, `LotsOfStars`,
`LotsOfForks` (the last two subclass `RepoTweet`). -/
inductive PatKind where
  | base
  | nReposInCache
  | repoTweet
  | lotsOfStars
  | lotsOfForks
deriving DecidableEq, Repr

/-- A pattern instance: its class, its template, and an object-identity tag
(`pid`) — distinct instances produced by the registry are distinct Python
objects, and `list.remove`/`in` compare them by identity. -/
structure Pat where
  kind : PatKind
  tmpl : Tmpl
  pid : Nat
deriving DecidableEq, Repr

/-- `pattern.re_match(tweet)` on a pattern instance. -/
def Pat.reM (p : Pat) (msg : List Char) : Option (List (List Char)) :=
  re_match p.tmpl msg

/-- The candidate pool `content`: a dict from repository uuid to its context
(insertion-ordered, unique keys). -/
abbrev Pool := List (String × Ctx)

/-- The allow-list `checkable = ['uuid', 'name', 'url']` in
`RepoTweet.drop_content`. -/
def checkable : List String := ["uuid", "name", "url"]

/-- The inner scan of `RepoTweet.drop_content` for one `(field, group)` pair:
`for uuid, context in content.items(): if '{f}'.format(**context) == g:
content.pop(uuid); return`.  Rendering the single field is a dict lookup;
a record whose context lacks the field raises `KeyError`.  On a hit the
first matching record is removed and the scan returns it. -/
def scanPool (f : String) (g : List Char) : Pool → Except PyErr (Option Pool)
  | [] => .ok none
  | (u, c) :: rest =>
    match ctxFind f c with
    | none => .error (.keyError f)
    | some v =>
      if v = g then .ok (some rest)
      else
        match scanPool f g rest with
        | .error e => .error e
        | .ok none => .ok none
        | .ok (some rest') => .ok (some ((u, c) :: rest'))

/-- The outer loop of `RepoTweet.drop_content` over
`zip(self.re_fields, match.groups())`: the first allow-listed field whose
group equals some record's rendered field removes that record and stops;
otherwise the next field is tried; if nothing matches the pool is left
unchanged. -/
def dcFields : List (String × List Char) → Pool → Except PyErr Pool
  | [], pool => .ok pool
  | (f, g) :: rest, pool =>
    if f ∈ checkable then
      match scanPool f g pool with
      | .error e => .error e
      | .ok (some pool') => .ok pool'
      | .ok none => dcFields rest pool
    else dcFields rest pool

/-- `RepoTweet.drop_content(message, content)`: re-run the match (a message
that does not match makes `match.groups()` an attribute access on `None`),
then walk the zipped (field, group) pairs. -/
def drop_content_repoTweet (t : Tmpl) (msg : List Char) (pool : Pool) :
    Except PyErr Pool :=
  match re_match t msg with
  | none => .error (.attributeError "groups")
  | some gs => dcFields ((fieldsOf t).zip gs) pool

/-- `pattern.drop_content(message, content)` with dynamic dispatch:
`TweetPattern.drop_content` (inherited by `NReposInCachePattern`) is
`return` — a no-op; `RepoTweet.drop_content` (inherited by `LotsOfStars`
and `LotsOfForks`) retracts a record. -/
def Pat.dropC (p : Pat) (msg : List Char) (pool : Pool) : Except PyErr Pool :=
  match p.kind with
  | .base => .ok pool
  | .nReposInCache => .ok pool
  | _ => drop_content_repoTweet p.tmpl msg pool

/-- Python `list.remove` preceded by the `in` guard of `drop_recent`:
remove the first occurrence if present. -/
def eraseFirst (p : Pat) : List Pat → List Pat
  | [] => []
  | q :: rest => if q = p then rest else q :: eraseFirst p rest

/-- The inner loop of `drop_recent` for one pattern: for each recent message,
on a match call `drop_content` (threading the mutated pool) and remove the
pattern from `result` if still present. -/
def innerDrop (p : Pat) : List (List Char) → List Pat → Pool →
    Except PyErr (List Pat × Pool)
  | [], res, pool => .ok (res, pool)
  | m :: ms, res, pool =>
    match p.reM m with
    | none => innerDrop p ms res pool
    | some _ =>
      match p.dropC m pool with
      | .error e => .error e
      | .ok pool' =>
        innerDrop p ms (if p ∈ res then eraseFirst p res else res) pool'

/-- The outer loop of `drop_recent` over the patterns list. -/
def outerDrop : List Pat → List (List Char) → List Pat → Pool →
    Except PyErr (List Pat × Pool)
  | [], _, res, pool => .ok (res, pool)
  | p :: ps, recent, res, pool =>
    match innerDrop p recent res pool with
    | .error e => .error e
    | .ok (res', pool') => outerDrop ps recent res' pool'

/-- `drop_recent(recent_messages, patterns, content)` applied to a list
`patterns`: `result = patterns.copy()`, the nested loops, then `result`
(paired here with the mutated pool). -/
def drop_recent (recent : List (List Char)) (patterns : List Pat)
    (content : Pool) : Except PyErr (List Pat × Pool) :=
  outerDrop patterns recent patterns content

/-- Reference fold describing only the pool mutations of `drop_recent`:
for every pattern, for every matching recent message, `drop_content` is
invoked on the current pool. -/
def dropAllOne (p : Pat) : List (List Char) → Pool → Except PyErr Pool
  | [], pool => .ok pool
  | m :: ms, pool =>
    match p.reM m with
    | none => dropAllOne p ms pool
    | some _ =>
      match p.dropC m pool with
      | .error e => .error e
      | .ok pool' => dropAllOne p ms pool'

/-- Reference fold over all patterns (pool mutations of `drop_recent`). -/
def dropAllSpec (recent : List (List Char)) : List Pat → Pool →
    Except PyErr Pool
  | [], pool => .ok pool
  | p :: ps, pool =>
    match dropAllOne p recent pool with
    | .error e => .error e
    | .ok pool' => dropAllSpec recent ps pool'

/-- A Python iterable as `drop_recent` receives it: either a `list` (which
has `.copy`/`.remove`) or a generator object (which has neither). -/
inductive PyIter (α : Type) where
  | list (l : List α)
  | generator (l : List α)

/-- `drop_recent` as called: its first statement `result = patterns.copy()`
is an attribute lookup that raises `AttributeError` on a generator. -/
def drop_recent_dyn (recent : List (List Char)) (patterns : PyIter Pat)
    (content : Pool) : Except PyErr (List Pat × Pool) :=
  match patterns with
  | .generator _ => .error (.attributeError "copy")
  | .list l => drop_recent recent l content

/-- `TweetPattern.patterns[0]`. -/
def tpT1 : Tmpl :=
  [.lit "We generate a report of repository metrics for any public github repo. Try it out at ".data,
   .field "repohealth_url"]

/-- `TweetPattern.patterns[1]`. -/
def tpT2 : Tmpl :=
  [.lit "If you want to find out how your favourite repository is faring, take a look at ".data,
   .field "repohealth_url"]

/-- `NReposInCachePattern.patterns[0]` (indexed fields kept as opaque names,
exactly as `RegexpFormatter.get_field` records them). -/
def nrT1 : Tmpl :=
  [.lit "I recently generated reports for #".data, .field "names[0]",
   .lit " and #".data, .field "names[1]",
   .lit " on ".data, .field "repohealth_url"]

/-- `RepoTweet.patterns[0]`. -/
def rtT1 : Tmpl :=
  [.lit "Just generated a health report for ".data, .field "name",
   .lit " at ".data, .field "url"]

/-- `LotsOfStars.patterns[0]` — note the adjacent placeholders. -/
def losT1 : Tmpl :=
  [.lit "Just compiled a repo report for ".data, .field "name",
   .lit " - it now has ".data, .field "stars_over_or_nearly",
   .field "n_stargazers", .lit " stargazers!".data]

/-- `LotsOfStars.patterns[1]`. -/
def losT2 : Tmpl :=
  [.lit "Did you know that ".data, .field "name",
   .lit " now has ".data, .field "stars_over_or_nearly",
   .field "n_stargazers", .lit " stargazers on GitHub? Full report at ".data,
   .field "url"]

/-- `LotsOfForks.patterns[0]`. -/
def lofT1 : Tmpl :=
  [.field "name", .lit " now has ".data, .field "forks_over_or_nearly",
   .field "forks", .lit " forks! See the full report at ".data, .field "url"]

/-- The pattern instances `TweetPattern.all_patterns_all_subclasses()` yields,
in generator order: the class itself, then `__subclasses__()` depth-first
(`NReposInCachePattern`, `RepoTweet`, `LotsOfStars`, `LotsOfForks`), one
instance per template string. -/
def allPatternsList : List Pat :=
  [⟨.base, tpT1, 0⟩, ⟨.base, tpT2, 1⟩,
   ⟨.nReposInCache, nrT1, 2⟩,
   ⟨.repoTweet, rtT1, 3⟩,
   ⟨.lotsOfStars, losT1, 4⟩, ⟨.lotsOfStars, losT2, 5⟩,
   ⟨.lotsOfForks, lofT1, 6⟩]

/-- The tail of `tweet_status` after the I/O collaborators: the pruning call
`patterns = drop_recent(recently_tweeted, patterns, content)` receives the
raw generator returned by `all_patterns_all_subclasses()`, and only if it
returns does control reach the candidate-rendering loop (abstracted as
`renderStage`, since an exception in `drop_recent` propagates out of
`tweet_status` before any rendering). -/
def tweetStatusAfterFetch
    (renderStage : List Pat → Pool → Except PyErr (List (List Char)))
    (recent : List (List Char)) (content : Pool) :
    Except PyErr (List (List Char)) :=
  match drop_recent_dyn recent (.generator allPatternsList) content with
  | .error e => .error e
  | .ok (ps, content') => renderStage ps content'

/-- A pattern instance with its lazily cached compiled matcher: the source
stores `compiled_regexp`/`re_fields` on the instance on the first
`re_match` call (`if not hasattr(self, 'compiled_regexp')`). -/
structure PatState where
  tmpl : Tmpl
  cache : Option (List RItem × List String)

/-- One `re_match` call on a pattern instance: compile on first use, then
reuse the stored matcher. -/
def reMatchStep (st : PatState) (msg : List Char) :
    PatState × Option (List (List Char)) :=
  let c :=
    match st.cache with
    | some c => c
    | none => (compileItems st.tmpl, fieldsOf st.tmpl)
  (⟨st.tmpl, some c⟩, matchItems c.1 msg)

/-- A sequence of `re_match` calls on one pattern instance, threading the
instance's mutable cache. -/
def runCalls (st : PatState) : List (List Char) →
    PatState × List (Option (List (List Char)))
  | [] => (st, [])
  | m :: ms =>
    let s1 := reMatchStep st m
    let s2 := runCalls s1.1 ms
    (s2.1, s1.2 :: s2.2)

/-- `int(floor(log10(x)))` for a positive integer statistic (the float
computation in `round_sig` is exact on the magnitudes involved), via a
structurally recursive digit count. -/
def log10floorAux : Nat → Nat → Nat
  | 0, _ => 0
  | fuel + 1, x => if x < 10 then 0 else log10floorAux fuel (x / 10) + 1

/-- Floor of the base-10 logarithm. -/
def log10floor (x : Nat) : Nat := log10floorAux x x

/-- Python `round` of an integer to a multiple of `m = 10 ** (-ndigits)`:
exact integer arithmetic, ties to the even multiple (banker's rounding). -/
def roundHalfEvenMult (m x : Nat) : Nat :=
  let q := x / m
  let r := x % m
  if 2 * r < m then q * m
  else if m < 2 * r then (q + 1) * m
  else if q % 2 = 0 then q * m else (q + 1) * m

/-- `round_sig(x, 2) = round(x, 2 - int(floor(log10(x))) - 1)`: a
non-negative `ndigits` leaves an integer unchanged; a negative one rounds
half-to-even to a multiple of `10 ** (floor(log10 x) - 1)`. -/
def round_sig (x : Nat) : Nat :=
  if log10floor x ≤ 1 then x
  else roundHalfEvenMult (10 ^ (log10floor x - 1)) x

/-- `round_with_direction_string`: the rounded value together with the
direction classification (`rounded < x` → "less than", `rounded > x` →
"more than", else "same as"). -/
def round_with_direction_string (x : Nat) : Nat × String :=
  let rounded := round_sig x
  (rounded,
    if rounded < x then "less than"
    else if x < rounded then "more than"
    else "same as")

/-- The qualifier dict of `LotsOfStars.updated_context` (and
`LotsOfForks.updated_context`): a Python dict lookup, `KeyError` (`none`)
off the three keys. -/
def over_nearly_or_exactly (d : String) : Option String :=
  if d = "less than" then some "over "
  else if d = "more than" then some "nearly "
  else if d = "same as" then some ""
  else none

/-- A pattern's matcher matches none of the recent messages (the keep
criterion of `drop_recent`). -/
def matchesNone (recent : List (List Char)) (p : Pat) : Bool :=
  recent.all (fun m => (p.reM m).isNone)

/-- A three-record pool in the shape `tweet_status` builds (`uuid`, `name`,
`url` set on every record), used to witness retraction. -/
def poolW : Pool :=
  [("u1", [("uuid", "u1".data), ("name", "alpha".data), ("url", "r.io/a".data)]),
   ("u2", [("uuid", "u2".data), ("name", "beta".data), ("url", "r.io/b".data)]),
   ("u3", [("uuid", "u3".data), ("name", "gamma".data), ("url", "r.io/c".data)])]

/-- If the non-greedy group search succeeds, the group is a newline-free
prefix of the input (past the already-consumed `acc`) and the rest of the
regex matched the remaining suffix. -/
theorem tryAll_some (f : List Char → Option (List (List Char))) :
    ∀ (ds acc : List Char) (gs' : List (List Char)),
      tryAll f acc ds = some gs' →
      ∃ p s gs, gs' = (acc.reverse ++ p) :: gs ∧ ds = p ++ s ∧
        ('\n' : Char) ∉ p ∧ f s = some gs := by
  intro ds
  induction ds with
  | nil =>
    intro acc gs' h
    simp only [tryAll] at h
    cases hf : f [] with
    | none => rw [hf] at h; exact absurd h (by simp)
    | some gs =>
      rw [hf] at h
      refine ⟨[], [], gs, ?_, by simp, by simp, hf⟩
      simpa using h.symm
  | cons d ds ih =>
    intro acc gs' h
    simp only [tryAll] at h
    cases hf : f (d :: ds) with
    | some gs =>
      rw [hf] at h
      exact ⟨[], d :: ds, gs, by simpa using h.symm, by simp, by simp, hf⟩
    | none =>
      rw [hf] at h
      by_cases hd : d = '\n'
      · simp [hd] at h
      · simp only [hd, if_false] at h
        obtain ⟨p', s, gs, hgs, hds, hnl, hfs⟩ := ih (d :: acc) gs' h
        refine ⟨d :: p', s, gs, ?_, by simp [hds], ?_, hfs⟩
        · simpa [List.append_assoc] using hgs
        · simp only [List.mem_cons, not_or]
          exact ⟨fun hdd => hd hdd.symm, hnl⟩

/-- If some newline-free split lets the rest of the regex match, the
non-greedy group search succeeds. -/
theorem tryAll_isSome (f : List Char → Option (List (List Char))) :
    ∀ (p s acc : List Char), ('\n' : Char) ∉ p → (f s).isSome →
      (tryAll f acc (p ++ s)).isSome := by
  intro p
  induction p with
  | nil =>
    intro s acc _ hf
    cases s with
    | nil =>
      simp only [List.nil_append, tryAll]
      cases hf' : f [] with
      | none => rw [hf'] at hf; simp at hf
      | some gs => simp
    | cons d ds =>
      simp only [List.nil_append, tryAll]
      cases hf' : f (d :: ds) with
      | none => rw [hf'] at hf; simp at hf
      | some gs => simp
  | cons d p ih =>
    intro s acc hnl hf
    simp only [List.cons_append, tryAll]
    cases hf' : f (d :: (p ++ s)) with
    | some gs => simp
    | none =>
      have hd : ¬ d = '\n' := fun hdd => hnl (by simp [hdd])
      simp only [hd, if_false]
      exact ih s (d :: acc) (fun hh => hnl (List.mem_cons_of_mem _ hh)) hf

/-- Soundness of the matcher: an accepted message is exactly the compiled
tokens refilled with the captured groups, possibly followed by the single
trailing newline `$` tolerates; the number of groups equals the number of
`(.*?)` groups in the regex. -/
theorem matchItems_sound :
    ∀ (items : List RItem), RItem.dot ∉ items →
      ∀ (ds : List Char) (gs : List (List Char)),
        matchItems items ds = some gs →
        gs.length = countGrp items ∧
          (fillItems items gs = ds ∨ fillItems items gs ++ ['\n'] = ds) := by
  intro items
  induction items with
  | nil =>
    intro _ ds gs h
    simp only [matchItems] at h
    by_cases hd : ds = [] ∨ ds = ['\n']
    · simp only [hd, if_true] at h
      have hgs : gs = [] := by simpa using h.symm
      subst hgs
      rcases hd with hd | hd <;> subst hd <;> simp [fillItems, countGrp]
    · simp [hd] at h
  | cons it rest ih =>
    cases it with
    | ch c =>
      intro hdot ds gs h
      have hdot' : RItem.dot ∉ rest := fun hh => hdot (List.mem_cons_of_mem _ hh)
      cases ds with
      | nil => simp [matchItems] at h
      | cons d ds' =>
        simp only [matchItems] at h
        by_cases hc : c = d
        · simp only [hc, if_true] at h
          obtain ⟨hlen, hfill⟩ := ih hdot' ds' gs h
          subst hc
          refine ⟨by simpa [countGrp] using hlen, ?_⟩
          rcases hfill with hf | hf
          · left; simp [fillItems, hf]
          · right; simpa [fillItems] using congrArg (c :: ·) hf
        · simp [hc] at h
    | dot =>
      intro hdot
      exact absurd (List.mem_cons_self _ _) hdot
    | grp =>
      intro hdot ds gs h
      have hdot' : RItem.dot ∉ rest := fun hh => hdot (List.mem_cons_of_mem _ hh)
      simp only [matchItems] at h
      obtain ⟨p, s, gs₂, hgs, hds, hnl, hfs⟩ := tryAll_some _ ds [] gs h
      simp only [List.reverse_nil, List.nil_append] at hgs
      obtain ⟨hlen, hfill⟩ := ih hdot' s gs₂ hfs
      subst hgs
      refine ⟨by simpa [countGrp] using hlen, ?_⟩
      rcases hfill with hf | hf
      · left; simp [fillItems, hf, hds]
      · right
        simp only [fillItems, List.append_assoc, hf]
        exact hds.symm

/-- Completeness of the matcher: a message built by refilling the compiled
tokens with newline-free groups (one per `(.*?)`) is accepted. -/
theorem matchItems_complete :
    ∀ (items : List RItem) (gs : List (List Char)), RItem.dot ∉ items →
      gs.length = countGrp items → (∀ g ∈ gs, ('\n' : Char) ∉ g) →
      (matchItems items (fillItems items gs)).isSome := by
  intro items
  induction items with
  | nil => intro gs _ _ _; simp [matchItems, fillItems]
  | cons it rest ih =>
    cases it with
    | ch c =>
      intro gs hdot hlen hnl
      have hdot' : RItem.dot ∉ rest := fun hh => hdot (List.mem_cons_of_mem _ hh)
      simp only [fillItems, matchItems, if_pos rfl]
      exact ih gs hdot' (by simpa [countGrp] using hlen) hnl
    | dot =>
      intro gs hdot
      exact absurd (List.mem_cons_self _ _) hdot
    | grp =>
      intro gs hdot hlen hnl
      have hdot' : RItem.dot ∉ rest := fun hh => hdot (List.mem_cons_of_mem _ hh)
      cases gs with
      | nil => simp [countGrp] at hlen
      | cons g gs' =>
        simp only [fillItems, matchItems]
        exact tryAll_isSome _ g _ []
          (hnl g (List.mem_cons_self _ _))
          (ih gs' hdot' (by simpa [countGrp] using hlen)
            (fun g' hg' => hnl g' (List.mem_cons_of_mem _ hg')))

/-- A literal without backslashes tokenises, after the source's escaping,
into plain literal-character tokens: the escape step is exactly what keeps
`?`, `*`, `.` literal. -/
theorem parseLit_escape :
    ∀ (s : List Char), ('\\' : Char) ∉ s →
      parseLit (escapePy s) = s.map RItem.ch := by
  intro s
  induction s with
  | nil => intro _; rfl
  | cons c s ih =>
    intro h
    have hc : ¬ c = '\\' := fun hh => h (by simp [hh])
    have hs : ('\\' : Char) ∉ s := fun hh => h (List.mem_cons_of_mem _ hh)
    have hrec : parseLit (escapePy s) = s.map RItem.ch := ih hs
    by_cases he : c = '?' ∨ c = '*' ∨ c = '.'
    · have hesc : escapePy (c :: s) = '\\' :: c :: escapePy s := by
        simp [escapePy, he]
      rw [hesc]
      simp [parseLit, hrec]
    · have hdot : ¬ c = '.' := fun hh => he (Or.inr (Or.inr hh))
      have hesc : escapePy (c :: s) = c :: escapePy s := by
        simp [escapePy, he]
      rw [hesc, parseLit.eq_def]
      simp [hc, hdot, hrec]

/-- Unpacking well-formedness of a literal-headed template. -/
theorem wfT_lit_cons {s : List Char} {t : Tmpl} (h : wfT (.lit s :: t) = true) :
    (∀ c ∈ s, badChar c = false) ∧ wfT t = true := by
  simp only [wfT, List.all_cons, Bool.and_eq_true, List.all_eq_true,
    Bool.not_eq_true'] at h
  exact ⟨h.1, by simpa [wfT, List.all_eq_true] using h.2⟩

/-- Unpacking well-formedness of a field-headed template. -/
theorem wfT_field_cons {f : String} {t : Tmpl} (h : wfT (.field f :: t) = true) :
    wfT t = true := by
  simpa [wfT, List.all_cons] using h

/-- A non-bad character is not a backslash and not a newline. -/
theorem badChar_false {c : Char} (h : badChar c = false) :
    ¬ c = '\\' ∧ ¬ c = '\n' := by
  simp only [badChar, Bool.or_eq_false_iff, decide_eq_false_iff_not] at h
  exact ⟨h.1.1.1.1.1.1.1.1.1.1.1, h.2⟩

/-- Compiling a literal-headed template. -/
theorem compile_lit_cons (s : List Char) (t : Tmpl) :
    compileItems (.lit s :: t) = parseLit (escapePy s) ++ compileItems t := by
  simp [compileItems]

/-- Compiling a field-headed template. -/
theorem compile_field_cons (f : String) (t : Tmpl) :
    compileItems (.field f :: t) = RItem.grp :: compileItems t := by
  simp [compileItems]

/-- The compiled tokens of a well-formed template contain no bare `.`. -/
theorem compile_noDot :
    ∀ (t : Tmpl), wfT t = true → RItem.dot ∉ compileItems t := by
  intro t
  induction t with
  | nil => intro _; simp [compileItems]
  | cons p t ih =>
    intro hwf
    cases p with
    | lit s =>
      obtain ⟨hs, ht⟩ := wfT_lit_cons hwf
      rw [compile_lit_cons,
        parseLit_escape s (fun hm => absurd (badChar_false (hs _ hm)).1 (by simp))]
      simp only [List.mem_append, not_or]
      exact ⟨by simp, ih ht⟩
    | field f =>
      rw [compile_field_cons]
      simp only [List.mem_cons, not_or]
      exact ⟨by simp, ih (wfT_field_cons hwf)⟩

/-- `countGrp` distributes over append. -/
theorem countGrp_append :
    ∀ (a b : List RItem), countGrp (a ++ b) = countGrp a + countGrp b := by
  intro a b
  induction a with
  | nil => simp [countGrp]
  | cons it a ih =>
    cases it with
    | ch c => simpa [countGrp] using ih
    | dot => simpa [countGrp] using ih
    | grp => simp [countGrp, ih]; omega

/-- Literal-character tokens contribute no groups. -/
theorem countGrp_mapCh (s : List Char) : countGrp (s.map RItem.ch) = 0 := by
  induction s with
  | nil => rfl
  | cons c s ih => simpa [countGrp] using ih

/-- The compiled regex of a well-formed template has one group per field. -/
theorem compile_countGrp :
    ∀ (t : Tmpl), wfT t = true →
      countGrp (compileItems t) = (fieldsOf t).length := by
  intro t
  induction t with
  | nil => intro _; rfl
  | cons p t ih =>
    intro hwf
    cases p with
    | lit s =>
      obtain ⟨hs, ht⟩ := wfT_lit_cons hwf
      rw [compile_lit_cons, countGrp_append,
        parseLit_escape s (fun hm => absurd (badChar_false (hs _ hm)).1 (by simp)),
        countGrp_mapCh, ih ht]
      simp [fieldsOf]
    | field f =>
      rw [compile_field_cons]
      simp only [countGrp, fieldsOf, List.length_cons]
      rw [ih (wfT_field_cons hwf)]

/-- Refilling literal-character tokens prepends the literal unchanged. -/
theorem fill_mapCh :
    ∀ (s : List Char) (items : List RItem) (gs : List (List Char)),
      fillItems (s.map RItem.ch ++ items) gs = s ++ fillItems items gs := by
  intro s items gs
  induction s with
  | nil => simp
  | cons c s ih => simpa [fillItems] using ih

/-- Refilling the compiled tokens of a well-formed template is template
substitution. -/
theorem compile_fill :
    ∀ (t : Tmpl), wfT t = true → ∀ (gs : List (List Char)),
      fillItems (compileItems t) gs = templFill t gs := by
  intro t
  induction t with
  | nil => intro _ gs; rfl
  | cons p t ih =>
    intro hwf gs
    cases p with
    | lit s =>
      obtain ⟨hs, ht⟩ := wfT_lit_cons hwf
      rw [compile_lit_cons,
        parseLit_escape s (fun hm => absurd (badChar_false (hs _ hm)).1 (by simp)),
        fill_mapCh, ih ht gs]
      rfl
    | field f =>
      rw [compile_field_cons]
      cases gs with
      | nil =>
        simp only [fillItems, templFill]
        exact ih (wfT_field_cons hwf) []
      | cons g gs' =>
        simp only [fillItems, templFill]
        rw [ih (wfT_field_cons hwf) gs']

/-- A substituted template contains no newline when neither its literals nor
the substituted values do. -/
theorem noNl_templFill :
    ∀ (t : Tmpl) (gs : List (List Char)),
      (∀ s, TPart.lit s ∈ t → ('\n' : Char) ∉ s) →
      (∀ g ∈ gs, ('\n' : Char) ∉ g) →
      ('\n' : Char) ∉ templFill t gs := by
  intro t
  induction t with
  | nil => intro gs _ _; simp [templFill]
  | cons p t ih =>
    intro gs hl hg
    cases p with
    | lit s =>
      simp only [templFill, List.mem_append, not_or]
      exact ⟨hl s (by simp),
        ih gs (fun s' hs' => hl s' (List.mem_cons_of_mem _ hs')) hg⟩
    | field f =>
      cases gs with
      | nil =>
        simp only [templFill]
        exact ih [] (fun s' hs' => hl s' (List.mem_cons_of_mem _ hs')) (by simp)
      | cons g gs' =>
        simp only [templFill, List.mem_append, not_or]
        exact ⟨hg g (by simp),
          ih gs' (fun s' hs' => hl s' (List.mem_cons_of_mem _ hs'))
            (fun g' hg' => hg g' (List.mem_cons_of_mem _ hg'))⟩

/-- Well-formedness bans newlines in literals. -/
theorem wfT_noNl {t : Tmpl} (h : wfT t = true) :
    ∀ s, TPart.lit s ∈ t → ('\n' : Char) ∉ s := by
  intro s hs hmem
  simp only [wfT, List.all_eq_true] at h
  have h1 := h (TPart.lit s) hs
  simp only [List.all_eq_true, Bool.not_eq_true'] at h1
  have h2 := h1 '\n' hmem
  simp [badChar] at h2

/-- The values substituted for a template's fields by a lookup function. -/
def fieldVals (t : Tmpl) (look : String → Option (List Char)) :
    List (List Char) :=
  (fieldsOf t).map (fun f => (look f).getD [])

/-- A successful render is the template substituted with the looked-up field
values, all of which exist. -/
theorem renderE_ok :
    ∀ (t : Tmpl) (look : String → Option (List Char)) (r : List Char),
      renderE t look = .ok r →
      r = templFill t (fieldVals t look) ∧
        ∀ f ∈ fieldsOf t, (look f).isSome := by
  intro t
  induction t with
  | nil =>
    intro look r h
    simp only [renderE] at h
    have : r = [] := by simpa using h.symm
    simp [this, templFill, fieldsOf, fieldVals]
  | cons p t ih =>
    cases p with
    | lit s =>
      intro look r h
      simp only [renderE] at h
      cases hrec : renderE t look with
      | error e => rw [hrec] at h; exact absurd h (by simp)
      | ok r' =>
        rw [hrec] at h
        have hr : r = s ++ r' := by simpa using h.symm
        obtain ⟨h1, h2⟩ := ih look r' hrec
        subst hr
        refine ⟨?_, by simpa [fieldsOf] using h2⟩
        simp only [templFill, fieldVals, fieldsOf]
        exact congrArg (fun x => s ++ x) h1
    | field f =>
      intro look r h
      simp only [renderE] at h
      cases hf : look f with
      | none => rw [hf] at h; exact absurd h (by simp)
      | some v =>
        rw [hf] at h
        cases hrec : renderE t look with
        | error e => rw [hrec] at h; exact absurd h (by simp)
        | ok r' =>
          rw [hrec] at h
          have hr : r = v ++ r' := by simpa using h.symm
          obtain ⟨h1, h2⟩ := ih look r' hrec
          subst hr
          constructor
          · simp only [fieldVals, fieldsOf, List.map_cons, templFill, hf,
              Option.getD_some]
            exact congrArg (fun x => v ++ x) h1
          · intro f' hf'
            rcases List.mem_cons.1 (by simpa [fieldsOf] using hf') with h' | h'
            · subst h'; simp [hf]
            · exact h2 f' h'

/-- A failed render names a field of the template absent from the lookup. -/
theorem renderE_err :
    ∀ (t : Tmpl) (look : String → Option (List Char)) (e : PyErr),
      renderE t look = .error e →
      ∃ f, e = .keyError f ∧ f ∈ fieldsOf t ∧ look f = none := by
  intro t
  induction t with
  | nil => intro look e h; simp [renderE] at h
  | cons p t ih =>
    cases p with
    | lit s =>
      intro look e h
      simp only [renderE] at h
      cases hrec : renderE t look with
      | error e' =>
        rw [hrec] at h
        have he : e' = e := by simpa using h
        obtain ⟨f, h1, h2, h3⟩ := ih look e' hrec
        exact ⟨f, he ▸ h1, by simpa [fieldsOf] using h2, h3⟩
      | ok r' => rw [hrec] at h; exact absurd h (by simp)
    | field f =>
      intro look e h
      simp only [renderE] at h
      cases hf : look f with
      | none =>
        rw [hf] at h
        have : PyErr.keyError f = e := by simpa using h
        exact ⟨f, this.symm, by simp [fieldsOf], hf⟩
      | some v =>
        rw [hf] at h
        cases hrec : renderE t look with
        | error e' =>
          rw [hrec] at h
          have he : e' = e := by simpa using h
          obtain ⟨f', h1, h2, h3⟩ := ih look e' hrec
          exact ⟨f', he ▸ h1, by simp [fieldsOf, h2], h3⟩
        | ok r' => rw [hrec] at h; exact absurd h (by simp)

/-- A render with a missing field fails with a `KeyError`. -/
theorem renderE_missing (t : Tmpl) (look : String → Option (List Char))
    (f : String) (hf : f ∈ fieldsOf t) (hnone : look f = none) :
    ∃ f', renderE t look = .error (.keyError f') := by
  cases h : renderE t look with
  | ok r =>
    have := (renderE_ok t look r h).2 f hf
    rw [hnone] at this
    simp at this
  | error e =>
    obtain ⟨f', h1, _, _⟩ := renderE_err t look e h
    exact ⟨f', by rw [h1]⟩

/-- A found binding is a binding of the dict. -/
theorem ctxFind_mem :
    ∀ (c : Ctx) (k : String) (v : List Char),
      ctxFind k c = some v → (k, v) ∈ c := by
  intro c
  induction c with
  | nil => intro k v h; simp [ctxFind] at h
  | cons kv c ih =>
    intro k v h
    obtain ⟨k', v'⟩ := kv
    simp only [ctxFind] at h
    by_cases hk : k = k'
    · rw [if_pos hk] at h
      have : v' = v := by simpa using h
      simp [hk, this]
    · rw [if_neg hk] at h
      exact List.mem_cons_of_mem _ (ih k v h)

/-- A key both in `context` and `extra_context` makes `firstShared` fire. -/
theorem firstShared_isSome (ctx extra : Ctx) (k : String)
    (h1 : (ctxFind k ctx).isSome) (h2 : (ctxFind k extra).isSome) :
    (firstShared ctx extra).isSome := by
  obtain ⟨v, hv⟩ := Option.isSome_iff_exists.1 h1
  have hk : k ∈ ctx.map Prod.fst :=
    List.mem_map.2 ⟨(k, v), ctxFind_mem ctx k v hv, rfl⟩
  rw [firstShared, List.find?_isSome]
  exact ⟨k, hk, h2⟩

/-- Splitting a substitution at an append of templates (given enough
values for the left part's fields). -/
theorem templFill_append :
    ∀ (t₁ t₂ : Tmpl) (gs : List (List Char)),
      (fieldsOf t₁).length ≤ gs.length →
      templFill (t₁ ++ t₂) gs =
        templFill t₁ gs ++ templFill t₂ (gs.drop (fieldsOf t₁).length) := by
  intro t₁
  induction t₁ with
  | nil => intro t₂ gs _; simp [templFill, fieldsOf]
  | cons p t₁ ih =>
    intro t₂ gs hlen
    cases p with
    | lit s =>
      have hc : (TPart.lit s :: t₁) ++ t₂ = TPart.lit s :: (t₁ ++ t₂) := rfl
      rw [hc]
      simp only [templFill, fieldsOf]
      rw [ih t₂ gs hlen, List.append_assoc]
    | field f =>
      cases gs with
      | nil => simp [fieldsOf] at hlen
      | cons g gs' =>
        have hc : (TPart.field f :: t₁) ++ t₂ = TPart.field f :: (t₁ ++ t₂) := rfl
        rw [hc]
        simp only [templFill, fieldsOf, List.length_cons, List.drop_succ_cons]
        simp only [fieldsOf, List.length_cons] at hlen
        rw [ih t₂ gs' (by omega), List.append_assoc]

/-- `fieldsOf` distributes over append. -/
theorem fieldsOf_append :
    ∀ (t₁ t₂ : Tmpl), fieldsOf (t₁ ++ t₂) = fieldsOf t₁ ++ fieldsOf t₂ := by
  intro t₁ t₂
  induction t₁ with
  | nil => simp [fieldsOf]
  | cons p t₁ ih =>
    cases p with
    | lit s =>
      have hc : (TPart.lit s :: t₁) ++ t₂ = TPart.lit s :: (t₁ ++ t₂) := rfl
      rw [hc]
      simpa [fieldsOf] using ih
    | field f =>
      have hc : (TPart.field f :: t₁) ++ t₂ = TPart.field f :: (t₁ ++ t₂) := rfl
      rw [hc]
      simpa [fieldsOf] using ih

/-- Core round-trip: the matcher accepts anything the renderer produced
(for newline-free values), and whatever groups it captures refill the
template to the same text. -/
theorem roundtrip_core (t : Tmpl) (look : String → Option (List Char))
    (r : List Char) (hwf : wfT t = true)
    (hvals : ∀ f v, look f = some v → ('\n' : Char) ∉ v)
    (hok : renderE t look = .ok r) :
    ∃ gs, re_match t r = some gs ∧ gs.length = (fieldsOf t).length ∧
      templFill t gs = r := by
  obtain ⟨hfill, _⟩ := renderE_ok t look r hok
  have hvlen : (fieldVals t look).length = (fieldsOf t).length := by
    simp [fieldVals]
  have hvnl : ∀ g ∈ fieldVals t look, ('\n' : Char) ∉ g := by
    intro g hg
    obtain ⟨f, hf, hfg⟩ := List.mem_map.1 hg
    cases hl : look f with
    | none =>
      rw [hl] at hfg
      simp only [Option.getD_none] at hfg
      rw [← hfg]
      simp
    | some v =>
      rw [hl] at hfg
      simp only [Option.getD_some] at hfg
      rw [← hfg]
      exact hvals f v hl
  have hdot := compile_noDot t hwf
  have hcg := compile_countGrp t hwf
  have hfillc : fillItems (compileItems t) (fieldVals t look) = r := by
    rw [compile_fill t hwf, ← hfill]
  have hs := matchItems_complete (compileItems t) (fieldVals t look) hdot
    (by rw [hcg, hvlen]) hvnl
  rw [hfillc] at hs
  obtain ⟨gs, hgs⟩ := Option.isSome_iff_exists.1 hs
  obtain ⟨hlen, hfill2⟩ := matchItems_sound (compileItems t) hdot r gs hgs
  refine ⟨gs, hgs, by rw [hlen, hcg], ?_⟩
  have hrnl : ('\n' : Char) ∉ r := by
    rw [hfill]
    exact noNl_templFill t (fieldVals t look) (wfT_noNl hwf) hvnl
  rcases hfill2 with hf2 | hf2
  · rw [← compile_fill t hwf gs]
    exact hf2
  · exfalso
    apply hrnl
    rw [← hf2]
    simp

/-- C1 (amended).  Round-trip: for every well-formed template and every
(context, extra_context) pair with newline-free values on which `format`
succeeds, `re_match` applied to the rendered string succeeds, captures one
group per field occurrence, and the captured groups substituted back into
the template reproduce the rendered string exactly.  The captured groups
need NOT equal the rendered per-field values: with adjacent placeholders the
non-greedy groups split the text differently (see the counterexample). -/
theorem c1_round_trip (t : Tmpl) (ctx extra : Ctx) (r : List Char)
    (hwf : wfT t = true)
    (hnl : ∀ kv ∈ ctx, ('\n' : Char) ∉ kv.2)
    (hnl2 : ∀ kv ∈ extra, ('\n' : Char) ∉ kv.2)
    (hok : formatP t ctx extra = .ok r) :
    ∃ gs, re_match t r = some gs ∧ gs.length = (fieldsOf t).length ∧
      templFill t gs = r := by
  rw [formatP] at hok
  cases hfs : firstShared ctx extra with
  | some k => rw [hfs] at hok; exact absurd hok (by simp)
  | none =>
    rw [hfs] at hok
    refine roundtrip_core t (mergedLook ctx extra) r hwf ?_ hok
    intro f v hv
    rw [mergedLook] at hv
    cases h1 : ctxFind f ctx with
    | some v' =>
      rw [h1] at hv
      have : v' = v := by simpa using hv
      subst this
      exact hnl (f, v') (ctxFind_mem ctx f v' h1)
    | none =>
      rw [h1] at hv
      exact hnl2 (f, v) (ctxFind_mem extra f v hv)

/-- Witness for C1: the `RepoTweet` template rendered with
`name = "octo"`, `url = "r.io/a"`. -/
theorem c1_round_trip_witness :
    ∃ gs,
      re_match rtT1 "Just generated a health report for octo at r.io/a".data =
        some gs ∧
      gs.length = (fieldsOf rtT1).length ∧
      templFill rtT1 gs =
        "Just generated a health report for octo at r.io/a".data :=
  c1_round_trip rtT1 [("name", "octo".data), ("url", "r.io/a".data)] []
    "Just generated a health report for octo at r.io/a".data
    (by decide) (by decide) (by decide) rfl

/-- Counterexample for C1 as stated: on the `LotsOfStars` template with
adjacent placeholders, rendering with `stars_over_or_nearly = "over "` and
`n_stargazers = "1200"` succeeds, the match succeeds, but the group captured
for `stars_over_or_nearly` is `""`, not the rendered value `"over "` (the
non-greedy group takes the shortest split). -/
theorem c1_counterexample :
    formatP losT1
        [("name", "octo".data), ("stars_over_or_nearly", "over ".data),
         ("n_stargazers", "1200".data)] [] =
      .ok "Just compiled a repo report for octo - it now has over 1200 stargazers!".data ∧
    re_match losT1
        "Just compiled a repo report for octo - it now has over 1200 stargazers!".data =
      some ["octo".data, [], "over 1200".data] ∧
    fieldsOf losT1 = ["name", "stars_over_or_nearly", "n_stargazers"] ∧
    ([] : List Char) ≠ "over ".data :=
  ⟨rfl, by decide, by decide, by decide⟩

/-- C2 (amended).  The compiled matcher is anchored at BOTH ends: the regex
carries the `$` end anchor and `re.Pattern.match` pins position 0, so an
accepted message is exactly the template refilled with the captured groups
(up to the single trailing newline `$` tolerates) — not merely a suffix
match. -/
theorem c2_both_ends_anchored (t : Tmpl) (msg : List Char)
    (gs : List (List Char)) (hwf : wfT t = true)
    (h : re_match t msg = some gs) :
    gs.length = (fieldsOf t).length ∧
      (templFill t gs = msg ∨ templFill t gs ++ ['\n'] = msg) := by
  have hdot := compile_noDot t hwf
  have h' : matchItems (compileItems t) msg = some gs := h
  obtain ⟨hlen, hfill⟩ := matchItems_sound (compileItems t) hdot msg gs h'
  refine ⟨by rw [hlen, compile_countGrp t hwf], ?_⟩
  rw [← compile_fill t hwf gs]
  exact hfill

/-- Witness for C2 at the `RepoTweet` template and a rendered message. -/
theorem c2_both_ends_anchored_witness :
    (["octo".data, "r.io/a".data] : List (List Char)).length =
        (fieldsOf rtT1).length ∧
      (templFill rtT1 ["octo".data, "r.io/a".data] =
          "Just generated a health report for octo at r.io/a".data ∨
        templFill rtT1 ["octo".data, "r.io/a".data] ++ ['\n'] =
          "Just generated a health report for octo at r.io/a".data) :=
  c2_both_ends_anchored rtT1
    "Just generated a health report for octo at r.io/a".data
    ["octo".data, "r.io/a".data] (by decide) (by decide)

/-- Counterexample for C2 as stated: a message that strictly ends with a
renderable text of the `RepoTweet` template (here with two extra leading
characters) is REJECTED by `re_match`, because `re.Pattern.match` anchors
the start of the string. -/
theorem c2_counterexample :
    formatP rtT1 [("name", "octo".data), ("url", "r.io/a".data)] [] =
      .ok "Just generated a health report for octo at r.io/a".data ∧
    re_match rtT1
      "XX Just generated a health report for octo at r.io/a".data = none :=
  ⟨rfl, by decide⟩

/-- C8.  Escaping: in any accepted message, each literal segment of a
well-formed template — including its `?`, `*`, `.` characters, which the
source escapes before compiling — occurs verbatim at its position between
the captured groups; concretely, the template with literal `"a.b"` accepts
`"a.b"` and rejects `"a" ++ c ++ "b"` for every `c ≠ '.'`, whereas an
UNescaped `.` token would accept any non-newline character there. -/
theorem c8_escaping :
    (∀ (t₁ t₂ : Tmpl) (s msg : List Char) (gs : List (List Char)),
      wfT (t₁ ++ .lit s :: t₂) = true →
      re_match (t₁ ++ .lit s :: t₂) msg = some gs →
      ∃ a b, msg = a ++ (s ++ b) ∨ msg = (a ++ (s ++ b)) ++ ['\n']) ∧
    re_match [.lit "a.b".data] "a.b".data = some [] ∧
    (∀ c : Char, ¬ c = '.' → re_match [.lit "a.b".data] ['a', c, 'b'] = none) ∧
    (∀ c : Char, ¬ c = '\n' →
      matchItems [.ch 'a', .dot, .ch 'b'] ['a', c, 'b'] = some []) := by
  refine ⟨?_, by decide, ?_, ?_⟩
  · intro t₁ t₂ s msg gs hwf h
    have hdot := compile_noDot _ hwf
    have h' : matchItems (compileItems (t₁ ++ .lit s :: t₂)) msg = some gs := h
    obtain ⟨hlen, hfill⟩ := matchItems_sound _ hdot msg gs h'
    have hcg := compile_countGrp _ hwf
    have hflen : (fieldsOf t₁).length ≤ gs.length := by
      rw [hlen, hcg, fieldsOf_append]
      simp
    have hta := templFill_append t₁ (.lit s :: t₂) gs hflen
    refine ⟨templFill t₁ gs,
      templFill t₂ ((gs.drop (fieldsOf t₁).length)), ?_⟩
    rcases hfill with hf | hf
    · left
      rw [compile_fill _ hwf] at hf
      rw [← hf, hta]
      simp [templFill]
    · right
      rw [compile_fill _ hwf] at hf
      rw [← hf, hta]
      simp [templFill]
  · intro c hc
    have hcomp : compileItems [.lit "a.b".data] = [.ch 'a', .ch '.', .ch 'b'] := by
      decide
    have hne : ¬ ('.' = c) := fun hh => hc hh.symm
    simp [re_match, hcomp, matchItems, hne]
  · intro c hc
    simp [matchItems, hc]

/-- Witness for C8: the rejection conjunct at `c = 'X'`. -/
theorem c8_escaping_witness :
    re_match [.lit "a.b".data] ['a', 'X', 'b'] = none :=
  c8_escaping.2.2.1 'X' (by decide)

/-- C3 (amended).  Merge precedence: whenever `context` and `extra_context`
share a key, the call `self.pattern.format(**(extra_context or {}),
**context)` raises `TypeError` ("got multiple values for keyword argument")
at the duplicate keyword — `format` never returns, so no shadowing of the
shared key's value takes place. -/
theorem c3_shared_key_errors (t : Tmpl) (ctx extra : Ctx) (k : String)
    (h1 : (ctxFind k ctx).isSome) (h2 : (ctxFind k extra).isSome) :
    ∃ k', formatP t ctx extra = .error (.typeErrorMultipleValues k') := by
  have hs := firstShared_isSome ctx extra k h1 h2
  obtain ⟨k', hk'⟩ := Option.isSome_iff_exists.1 hs
  exact ⟨k', by simp [formatP, hk']⟩

/-- Witness for C3 at a concrete colliding pair. -/
theorem c3_shared_key_errors_witness :
    ∃ k', formatP [.lit "hi ".data, .field "a"]
        [("a", "x".data)] [("a", "y".data)] =
      .error (.typeErrorMultipleValues k') :=
  c3_shared_key_errors [.lit "hi ".data, .field "a"]
    [("a", "x".data)] [("a", "y".data)] "a" (by decide) (by decide)

/-- Counterexample for C3 as stated: with the shared key `"a"`, `format`
does not succeed with the context's value `"x"`; it raises `TypeError`. -/
theorem c3_counterexample :
    formatP [.lit "hi ".data, .field "a"] [("a", "x".data)] [("a", "y".data)] =
      .error (.typeErrorMultipleValues "a") ∧
    formatP [.lit "hi ".data, .field "a"] [("a", "x".data)] [("a", "y".data)] ≠
      .ok "hi x".data :=
  ⟨rfl, fun h => Except.noConfusion h⟩

/-- C4 (amended).  Missing field: rendering a template with a placeholder
absent from the merged mapping raises `KeyError` (the source defines no
dedicated `MissingFieldError`), and the candidate loop of `tweet_status`
has no handler: the first failing render aborts the whole collection with
that error instead of skipping the (pattern, context) pair. -/
theorem c4_missing_field :
    (∀ (t : Tmpl) (ctx extra : Ctx) (f : String),
      f ∈ fieldsOf t → mergedLook ctx extra f = none →
      firstShared ctx extra = none →
      ∃ f', formatP t ctx extra = .error (.keyError f')) ∧
    (∀ (t : Tmpl) (c g : Ctx) (rest : List (Tmpl × Ctx)) (e : PyErr),
      formatP t c g = .error e →
      collectOptions ((t, c) :: rest) g = .error e) := by
  constructor
  · intro t ctx extra f hf hnone hfs
    obtain ⟨f', hf'⟩ := renderE_missing t (mergedLook ctx extra) f hf hnone
    exact ⟨f', by simp [formatP, hfs, hf']⟩
  · intro t c g rest e h
    simp [collectOptions, h]

/-- Witness for C4: the missing field `"x"` and the aborting loop. -/
theorem c4_missing_field_witness :
    (∃ f', formatP [.lit "hi ".data, .field "x"] [] [] =
      .error (.keyError f')) ∧
    collectOptions [([.lit "hi ".data, .field "x"], [])] [] =
      .error (.keyError "x") :=
  ⟨c4_missing_field.1 [.lit "hi ".data, .field "x"] [] [] "x"
      (by decide) rfl rfl,
   c4_missing_field.2 [.lit "hi ".data, .field "x"] [] [] [] (.keyError "x")
      rfl⟩

/-- Counterexample for C4 as stated: with a first candidate whose context
misses the field `"x"` and a second, renderable candidate, the collection
aborts with `KeyError` — it does not skip the failing pair and return the
second candidate's rendering. -/
theorem c4_counterexample :
    collectOptions
        [([.lit "hi ".data, .field "x"], []),
         (rtT1, [("name", "octo".data), ("url", "r.io/a".data)])] [] =
      .error (.keyError "x") ∧
    collectOptions
        [([.lit "hi ".data, .field "x"], []),
         (rtT1, [("name", "octo".data), ("url", "r.io/a".data)])] [] ≠
      .ok ["Just generated a health report for octo at r.io/a".data] :=
  ⟨rfl, fun h => Except.noConfusion h⟩

/-- C10.  `tweet_status` passes the raw generator returned by
`all_patterns_all_subclasses()` to `drop_recent`, whose first statement
`patterns.copy()` is an attribute lookup that fails on a generator: every
run reaching the pruning step raises `AttributeError` there, whatever the
recent messages and pool are, before the rendering stage can run. -/
theorem c10_generator_attribute_error
    (renderStage : List Pat → Pool → Except PyErr (List (List Char)))
    (recent : List (List Char)) (content : Pool) :
    tweetStatusAfterFetch renderStage recent content =
      .error (.attributeError "copy") := rfl

/-- C9.  Matcher stability: on any pattern instance whose cache is either
unset or already the template's compiled matcher, every `re_match` call
returns the pure function of the template (so two instances built from the
same template string accept exactly the same strings), the template is
never altered, and after the first call the cache holds exactly the
compiled matcher and field order derived from the template and stays
there. -/
theorem c9_matcher_stability (t : Tmpl) (st : PatState)
    (msgs : List (List Char)) (hst : st.tmpl = t)
    (hc : st.cache = none ∨ st.cache = some (compileItems t, fieldsOf t)) :
    (runCalls st msgs).2 = msgs.map (fun m => re_match t m) ∧
    (runCalls st msgs).1.tmpl = t ∧
    (msgs = [] → (runCalls st msgs).1.cache = st.cache) ∧
    (¬ msgs = [] →
      (runCalls st msgs).1.cache = some (compileItems t, fieldsOf t)) := by
  induction msgs generalizing st with
  | nil =>
    refine ⟨rfl, hst, fun _ => rfl, fun h => absurd rfl h⟩
  | cons m ms ih =>
    have hcval :
        (match st.cache with
          | some c => c
          | none => (compileItems st.tmpl, fieldsOf st.tmpl)) =
          (compileItems t, fieldsOf t) := by
      rcases hc with hc | hc <;> rw [hc, hst]
    have hstep : reMatchStep st m =
        (⟨t, some (compileItems t, fieldsOf t)⟩, re_match t m) := by
      rw [reMatchStep, hcval, hst, re_match]
    have hnext := ih ⟨t, some (compileItems t, fieldsOf t)⟩ rfl (Or.inr rfl)
    simp only [runCalls, hstep]
    refine ⟨?_, hnext.2.1, fun h => absurd h (by simp), fun _ => ?_⟩
    · simp [hnext.1]
    · cases hms : ms with
      | nil => rw [hms] at hnext; exact hnext.2.2.1 rfl
      | cons m' ms' => rw [hms] at hnext; exact hnext.2.2.2 (by simp)

/-- Witness for C9: one call on a fresh `RepoTweet` instance. -/
theorem c9_matcher_stability_witness :
    (runCalls ⟨rtT1, none⟩ ["abc".data]).2 =
        (["abc".data] : List (List Char)).map (fun m => re_match rtT1 m) ∧
    (runCalls ⟨rtT1, none⟩ ["abc".data]).1.tmpl = rtT1 ∧
    ((["abc".data] : List (List Char)) = [] →
      (runCalls ⟨rtT1, none⟩ ["abc".data]).1.cache = (none : Option (List RItem × List String))) ∧
    (¬ (["abc".data] : List (List Char)) = [] →
      (runCalls ⟨rtT1, none⟩ ["abc".data]).1.cache =
        some (compileItems rtT1, fieldsOf rtT1)) :=
  c9_matcher_stability rtT1 ⟨rtT1, none⟩ ["abc".data] rfl (Or.inl rfl)

/-- The fueled digit recursion computes the floor of `log10`:
`10 ^ k ≤ x < 10 ^ (k + 1)`. -/
theorem log10floorAux_spec :
    ∀ (fuel x : Nat), 1 ≤ x → x ≤ fuel →
      10 ^ log10floorAux fuel x ≤ x ∧ x < 10 ^ (log10floorAux fuel x + 1) := by
  intro fuel
  induction fuel with
  | zero => intro x h1 h2; omega
  | succ fuel ih =>
    intro x h1 h2
    by_cases hx : x < 10
    · simp only [log10floorAux]
      rw [if_pos hx]
      constructor
      · simpa using h1
      · simpa using hx
    · simp only [log10floorAux]
      rw [if_neg hx]
      have hd1 : 1 ≤ x / 10 := by omega
      have hd2 : x / 10 ≤ fuel := by
        have := Nat.div_lt_self (by omega : 0 < x) (by omega : 1 < 10)
        omega
      obtain ⟨ha, hb⟩ := ih (x / 10) hd1 hd2
      constructor
      · calc 10 ^ (log10floorAux fuel (x / 10) + 1)
            = 10 ^ log10floorAux fuel (x / 10) * 10 := by rw [pow_succ]
          _ ≤ (x / 10) * 10 := Nat.mul_le_mul_right _ ha
          _ ≤ x := Nat.div_mul_le_self x 10
      · have hlt : x < (x / 10 + 1) * 10 := by omega
        calc x < (x / 10 + 1) * 10 := hlt
          _ ≤ 10 ^ (log10floorAux fuel (x / 10) + 1) * 10 :=
              Nat.mul_le_mul_right _ hb
          _ = 10 ^ (log10floorAux fuel (x / 10) + 1 + 1) := by ring

/-- The rounded value is a multiple of the rounding modulus. -/
theorem roundHalfEvenMult_mod (m x : Nat) : roundHalfEvenMult m x % m = 0 := by
  simp only [roundHalfEvenMult]
  split_ifs
  · exact Nat.mul_mod_left _ _
  · exact Nat.mul_mod_left _ _
  · exact Nat.mul_mod_left _ _
  · exact Nat.mul_mod_left _ _

/-- The rounded value is a nearest multiple: at most half a modulus away. -/
theorem roundHalfEvenMult_dist (m x : Nat) (hm : 0 < m) :
    2 * Nat.dist x (roundHalfEvenMult m x) ≤ m := by
  have hx : x / m * m + x % m = x := Nat.div_add_mod' x m
  have hr : x % m < m := Nat.mod_lt _ hm
  simp only [roundHalfEvenMult]
  rw [show (x / m + 1) * m = x / m * m + m by ring]
  generalize hA : x / m * m = A at hx ⊢
  generalize hR : x % m = r at hx hr ⊢
  split_ifs with h1 h2 h3
  · rw [Nat.dist_comm, Nat.dist_eq_sub_of_le (Nat.le.intro hx)]
    omega
  · rw [Nat.dist_eq_sub_of_le (by omega : x ≤ A + m)]
    omega
  · rw [Nat.dist_comm, Nat.dist_eq_sub_of_le (Nat.le.intro hx)]
    omega
  · rw [Nat.dist_eq_sub_of_le (by omega : x ≤ A + m)]
    omega

/-- Below 100, `ndigits = 2 - floor(log10 x) - 1 ≥ 0` and Python's `round`
leaves the integer unchanged. -/
theorem round_sig_small (x : Nat) (h1 : 1 ≤ x) (h2 : x < 100) :
    round_sig x = x := by
  have hs : 10 ^ log10floor x ≤ x ∧ x < 10 ^ (log10floor x + 1) :=
    log10floorAux_spec x x h1 le_rfl
  have hle : log10floor x ≤ 1 := by
    by_contra hgt
    push_neg at hgt
    have h100 : (100 : Nat) ≤ 10 ^ log10floor x := by
      calc (100 : Nat) = 10 ^ 2 := by norm_num
        _ ≤ 10 ^ log10floor x := Nat.pow_le_pow_right (by omega) (by omega)
    have := hs.1
    omega
  rw [round_sig, if_pos hle]

/-- From 100 upwards, `round_sig` rounds half-even to a multiple of
`10 ^ (floor(log10 x) - 1)`. -/
theorem round_sig_large (x : Nat) (h : 100 ≤ x) :
    round_sig x = roundHalfEvenMult (10 ^ (log10floor x - 1)) x ∧
      2 ≤ log10floor x := by
  have h1 : 1 ≤ x := by omega
  have hs : 10 ^ log10floor x ≤ x ∧ x < 10 ^ (log10floor x + 1) :=
    log10floorAux_spec x x h1 le_rfl
  have h2 : 2 ≤ log10floor x := by
    by_contra hlt
    push_neg at hlt
    have hb := hs.2
    have hup : 10 ^ (log10floor x + 1) ≤ 10 ^ 2 :=
      Nat.pow_le_pow_right (by omega) (by omega)
    have : (10 : Nat) ^ 2 = 100 := by norm_num
    omega
  exact ⟨by rw [round_sig, if_neg (by omega)], h2⟩

/-- The direction string tracks the comparison of the rounded value with
the original exactly as the source's `if`/`elif`/`else` does. -/
theorem rwds_direction (x : Nat) :
    ((round_with_direction_string x).2 = "less than" ↔
        (round_with_direction_string x).1 < x) ∧
    ((round_with_direction_string x).2 = "more than" ↔
        x < (round_with_direction_string x).1) ∧
    ((round_with_direction_string x).2 = "same as" ↔
        (round_with_direction_string x).1 = x) := by
  simp only [round_with_direction_string]
  rcases lt_trichotomy (round_sig x) x with h | h | h
  · rw [if_pos h]
    exact ⟨⟨fun _ => h, fun _ => rfl⟩,
      ⟨fun hh => absurd hh (by decide), fun hh => absurd hh (by omega)⟩,
      ⟨fun hh => absurd hh (by decide), fun hh => absurd hh (by omega)⟩⟩
  · rw [if_neg (by omega), if_neg (by omega)]
    exact ⟨⟨fun hh => absurd hh (by decide), fun hh => absurd hh (by omega)⟩,
      ⟨fun hh => absurd hh (by decide), fun hh => absurd hh (by omega)⟩,
      ⟨fun _ => h, fun _ => rfl⟩⟩
  · rw [if_neg (by omega), if_pos h]
    exact ⟨⟨fun hh => absurd hh (by decide), fun hh => absurd hh (by omega)⟩,
      ⟨fun _ => h, fun _ => rfl⟩,
      ⟨fun hh => absurd hh (by decide), fun hh => absurd hh (by omega)⟩⟩

/-- C7.  Rounding qualifier: `round_with_direction_string 1234 =
(1200, "less than")` and `round_with_direction_string 50 = (50, "same as")`;
for every positive integer the direction string classifies the comparison
of the rounded value against the original ("less than" below, "more than"
above, "same as" equal); the rounding is to 2 significant figures — exact
below 100, otherwise a nearest (half-a-modulus) multiple of
`10 ^ (floor(log10 x) - 1)`; and the displayed qualifiers are `"over "`,
`"nearly "` and `""`. -/
theorem c7_rounding :
    round_with_direction_string 1234 = (1200, "less than") ∧
    round_with_direction_string 50 = (50, "same as") ∧
    (∀ x : Nat,
      ((round_with_direction_string x).2 = "less than" ↔
          (round_with_direction_string x).1 < x) ∧
      ((round_with_direction_string x).2 = "more than" ↔
          x < (round_with_direction_string x).1) ∧
      ((round_with_direction_string x).2 = "same as" ↔
          (round_with_direction_string x).1 = x)) ∧
    (∀ x : Nat, 1 ≤ x → x < 100 → (round_with_direction_string x).1 = x) ∧
    (∀ x : Nat, 100 ≤ x →
      10 ^ log10floor x ≤ x ∧ x < 10 ^ (log10floor x + 1) ∧
      2 ≤ log10floor x ∧
      (round_with_direction_string x).1 % 10 ^ (log10floor x - 1) = 0 ∧
      2 * Nat.dist x (round_with_direction_string x).1 ≤
        10 ^ (log10floor x - 1)) ∧
    over_nearly_or_exactly "less than" = some "over " ∧
    over_nearly_or_exactly "more than" = some "nearly " ∧
    over_nearly_or_exactly "same as" = some "" := by
  refine ⟨by decide, by decide, rwds_direction, ?_, ?_, by decide, by decide,
    by decide⟩
  · intro x h1 h2
    have hfst : (round_with_direction_string x).1 = round_sig x := rfl
    rw [hfst]
    exact round_sig_small x h1 h2
  · intro x hx
    obtain ⟨heq, h2⟩ := round_sig_large x hx
    have h1 : 1 ≤ x := by omega
    have hs : 10 ^ log10floor x ≤ x ∧ x < 10 ^ (log10floor x + 1) :=
      log10floorAux_spec x x h1 le_rfl
    have hm : 0 < 10 ^ (log10floor x - 1) := pow_pos (by omega) _
    have hfst : (round_with_direction_string x).1 = round_sig x := rfl
    refine ⟨hs.1, hs.2, h2, ?_, ?_⟩
    · rw [hfst, heq]
      exact roundHalfEvenMult_mod _ _
    · rw [hfst, heq]
      exact roundHalfEvenMult_dist _ _ hm

/-- Witness for C7: the significant-figure clauses at `1234` and `60`. -/
theorem c7_rounding_witness :
    (round_with_direction_string 1234).1 % 10 ^ (log10floor 1234 - 1) = 0 ∧
    (round_with_direction_string 60).1 = 60 :=
  ⟨(c7_rounding.2.2.2.2.1 1234 (by decide)).2.2.2.1,
   c7_rounding.2.2.2.1 60 (by decide) (by decide)⟩

/-- When no record's rendered field equals the group, the scan is a silent
no-op (given every record has the field, so no `KeyError` fires). -/
theorem scanPool_none (f : String) (g : List Char) :
    ∀ (pool : Pool),
      (∀ e ∈ pool, (ctxFind f e.2).isSome) →
      (∀ e ∈ pool, ¬ ctxFind f e.2 = some g) →
      scanPool f g pool = .ok none := by
  intro pool
  induction pool with
  | nil => intro _ _; rfl
  | cons e pool ih =>
    intro hok hno
    obtain ⟨u, c⟩ := e
    obtain ⟨v, hv⟩ := Option.isSome_iff_exists.1 (hok (u, c) (by simp))
    have hvg : ¬ v = g := fun hh => hno (u, c) (by simp) (by rw [hv, hh])
    have hrec := ih (fun e he => hok e (List.mem_cons_of_mem _ he))
      (fun e he => hno e (List.mem_cons_of_mem _ he))
    simp [scanPool, hv, hvg, hrec]

/-- When some record's rendered field equals the group, the scan removes
exactly the first such record. -/
theorem scanPool_found (f : String) (g : List Char) :
    ∀ (pool : Pool),
      (∀ e ∈ pool, (ctxFind f e.2).isSome) →
      (∃ e ∈ pool, ctxFind f e.2 = some g) →
      ∃ pre e post, pool = pre ++ e :: post ∧ ctxFind f e.2 = some g ∧
        (∀ e' ∈ pre, ¬ ctxFind f e'.2 = some g) ∧
        scanPool f g pool = .ok (some (pre ++ post)) := by
  intro pool
  induction pool with
  | nil => intro _ h; simp at h
  | cons e0 pool ih =>
    intro hok hex
    obtain ⟨u, c⟩ := e0
    obtain ⟨v, hv⟩ := Option.isSome_iff_exists.1 (hok (u, c) (by simp))
    by_cases hvg : v = g
    · refine ⟨[], (u, c), pool, by simp, by rw [hv, hvg], by simp, ?_⟩
      simp [scanPool, hv, hvg]
    · have hex' : ∃ e ∈ pool, ctxFind f e.2 = some g := by
        rcases hex with ⟨e', he', hg⟩
        rcases List.mem_cons.1 he' with h | h
        · exfalso
          rw [h] at hg
          rw [hv] at hg
          exact hvg (by simpa using hg)
        · exact ⟨e', h, hg⟩
      obtain ⟨pre, e', post, hdec, hg, hpre, hscan⟩ :=
        ih (fun e he => hok e (List.mem_cons_of_mem _ he)) hex'
      refine ⟨(u, c) :: pre, e', post, by simp [hdec], hg, ?_, ?_⟩
      · intro e'' he''
        rcases List.mem_cons.1 he'' with h | h
        · rw [h, hv]
          exact fun hh => hvg (by simpa using hh)
        · exact hpre e'' h
      · simp [scanPool, hv, hvg, hscan]

/-- With no matching (field, group) pair at all, `drop_content`'s field loop
leaves the pool unchanged. -/
theorem dcFields_nomatch :
    ∀ (zs : List (String × List Char)) (pool : Pool),
      (∀ fg ∈ zs, fg.1 ∈ checkable → ∀ e ∈ pool, (ctxFind fg.1 e.2).isSome) →
      (∀ fg ∈ zs, fg.1 ∈ checkable →
        ∀ e ∈ pool, ¬ ctxFind fg.1 e.2 = some fg.2) →
      dcFields zs pool = .ok pool := by
  intro zs
  induction zs with
  | nil => intro pool _ _; rfl
  | cons fg zs ih =>
    intro pool hok hno
    obtain ⟨f, g⟩ := fg
    have hrec := ih pool (fun fg h => hok fg (List.mem_cons_of_mem _ h))
      (fun fg h => hno fg (List.mem_cons_of_mem _ h))
    by_cases hch : f ∈ checkable
    · have hnone := scanPool_none f g pool
        (fun e he => hok (f, g) (by simp) hch e he)
        (fun e he => hno (f, g) (by simp) hch e he)
      simp [dcFields, hch, hnone, hrec]
    · simp [dcFields, hch, hrec]

/-- With a matching pair, the field loop removes exactly the first matching
record of the first allow-listed field that has one, and stops. -/
theorem dcFields_found :
    ∀ (zs : List (String × List Char)) (pool : Pool),
      (∀ fg ∈ zs, fg.1 ∈ checkable → ∀ e ∈ pool, (ctxFind fg.1 e.2).isSome) →
      (∃ fg ∈ zs, fg.1 ∈ checkable ∧
        ∃ e ∈ pool, ctxFind fg.1 e.2 = some fg.2) →
      ∃ zpre fg zpost pre e post,
        zs = zpre ++ fg :: zpost ∧ fg.1 ∈ checkable ∧
        (∀ fg' ∈ zpre, fg'.1 ∈ checkable →
          ∀ e' ∈ pool, ¬ ctxFind fg'.1 e'.2 = some fg'.2) ∧
        pool = pre ++ e :: post ∧ ctxFind fg.1 e.2 = some fg.2 ∧
        (∀ e' ∈ pre, ¬ ctxFind fg.1 e'.2 = some fg.2) ∧
        dcFields zs pool = .ok (pre ++ post) := by
  intro zs
  induction zs with
  | nil => intro pool _ h; simp at h
  | cons fg0 zs ih =>
    intro pool hok hex
    obtain ⟨f, g⟩ := fg0
    by_cases hch : f ∈ checkable
    · by_cases hmatch : ∃ e ∈ pool, ctxFind f e.2 = some g
      · obtain ⟨pre, e, post, hdec, hg, hpre, hscan⟩ :=
          scanPool_found f g pool
            (fun e he => hok (f, g) (by simp) hch e he) hmatch
        refine ⟨[], (f, g), zs, pre, e, post, by simp, hch, by simp, hdec,
          hg, hpre, ?_⟩
        simp [dcFields, hch, hscan]
      · have hex' : ∃ fg ∈ zs, fg.1 ∈ checkable ∧
            ∃ e ∈ pool, ctxFind fg.1 e.2 = some fg.2 := by
          rcases hex with ⟨fg', hfg', hch', e, he, hg⟩
          rcases List.mem_cons.1 hfg' with h | h
          · exfalso
            rw [h] at hg
            exact hmatch ⟨e, he, hg⟩
          · exact ⟨fg', h, hch', e, he, hg⟩
        obtain ⟨zpre, fgW, zpost, pre, e, post, hzdec, hchW, hzpre, hdec, hg,
          hpre, hdc⟩ := ih pool
            (fun fg h => hok fg (List.mem_cons_of_mem _ h)) hex'
        refine ⟨(f, g) :: zpre, fgW, zpost, pre, e, post, by simp [hzdec],
          hchW, ?_, hdec, hg, hpre, ?_⟩
        · intro fg' hfg' hch' e' he'
          rcases List.mem_cons.1 hfg' with h | h
          · rw [h]
            exact fun hh => hmatch ⟨e', he', hh⟩
          · exact hzpre fg' h hch' e' he'
        · have hnone := scanPool_none f g pool
            (fun e he => hok (f, g) (by simp) hch e he)
            (fun e he hh => hmatch ⟨e, he, hh⟩)
          simp [dcFields, hch, hnone, hdc]
    · have hex' : ∃ fg ∈ zs, fg.1 ∈ checkable ∧
          ∃ e ∈ pool, ctxFind fg.1 e.2 = some fg.2 := by
        rcases hex with ⟨fg', hfg', hch', e, he, hg⟩
        rcases List.mem_cons.1 hfg' with h | h
        · exfalso
          rw [h] at hch'
          exact hch hch'
        · exact ⟨fg', h, hch', e, he, hg⟩
      obtain ⟨zpre, fgW, zpost, pre, e, post, hzdec, hchW, hzpre, hdec, hg,
        hpre, hdc⟩ := ih pool
          (fun fg h => hok fg (List.mem_cons_of_mem _ h)) hex'
      refine ⟨(f, g) :: zpre, fgW, zpost, pre, e, post, by simp [hzdec],
        hchW, ?_, hdec, hg, hpre, ?_⟩
      · intro fg' hfg' hch' e' he'
        rcases List.mem_cons.1 hfg' with h | h
        · exfalso
          rw [h] at hch'
          exact hch hch'
        · exact hzpre fg' h hch' e' he'
      · simp [dcFields, hch, hdc]

/-- C6.  Retraction removes at most one record: given a message the pattern
matches and a pool whose records all carry the allow-listed fields that the
template captures, `drop_content` either (a) leaves the pool unchanged and
raises nothing when no record's rendered allow-listed field equals the
corresponding captured group, or (b) removes exactly the first matching
record — first allow-listed field in `re_fields` order, first record in pool
order — and stops: the result has exactly one record fewer and the removed
record's key is gone (keys being unique as dict keys are). -/
theorem c6_retraction (t : Tmpl) (msg : List Char) (pool : Pool)
    (gs : List (List Char)) (hm : re_match t msg = some gs)
    (hok : ∀ fg ∈ (fieldsOf t).zip gs, fg.1 ∈ checkable →
      ∀ e ∈ pool, (ctxFind fg.1 e.2).isSome)
    (hkeys : (pool.map Prod.fst).Nodup) :
    ((∀ fg ∈ (fieldsOf t).zip gs, fg.1 ∈ checkable →
        ∀ e ∈ pool, ¬ ctxFind fg.1 e.2 = some fg.2) →
      drop_content_repoTweet t msg pool = .ok pool) ∧
    ((∃ fg ∈ (fieldsOf t).zip gs, fg.1 ∈ checkable ∧
        ∃ e ∈ pool, ctxFind fg.1 e.2 = some fg.2) →
      ∃ zpre fg zpost pre e post,
        (fieldsOf t).zip gs = zpre ++ fg :: zpost ∧ fg.1 ∈ checkable ∧
        (∀ fg' ∈ zpre, fg'.1 ∈ checkable →
          ∀ e' ∈ pool, ¬ ctxFind fg'.1 e'.2 = some fg'.2) ∧
        pool = pre ++ e :: post ∧ ctxFind fg.1 e.2 = some fg.2 ∧
        (∀ e' ∈ pre, ¬ ctxFind fg.1 e'.2 = some fg.2) ∧
        drop_content_repoTweet t msg pool = .ok (pre ++ post) ∧
        (pre ++ post).length + 1 = pool.length ∧
        ¬ e.1 ∈ (pre ++ post).map Prod.fst) := by
  constructor
  · intro hno
    simp only [drop_content_repoTweet, hm]
    exact dcFields_nomatch _ pool hok hno
  · intro hex
    obtain ⟨zpre, fg, zpost, pre, e, post, h1, h2, h3, h4, h5, h6, h7⟩ :=
      dcFields_found _ pool hok hex
    refine ⟨zpre, fg, zpost, pre, e, post, h1, h2, h3, h4, h5, h6, ?_, ?_, ?_⟩
    · simp only [drop_content_repoTweet, hm]
      exact h7
    · rw [h4]
      simp
      omega
    · rw [h4] at hkeys
      simp only [List.map_append, List.map_cons] at hkeys
      have hmid := List.nodup_middle.1 hkeys
      have := (List.nodup_cons.1 hmid).1
      rw [List.map_append]
      exact this

/-- Witness for C6: the three-record pool and a message rendered from its
second record; retraction removes exactly that record. -/
theorem c6_retraction_witness :
    ∃ zpre fg zpost pre e post,
      (fieldsOf rtT1).zip ["beta".data, "r.io/b".data] =
        zpre ++ fg :: zpost ∧ fg.1 ∈ checkable ∧
      (∀ fg' ∈ zpre, fg'.1 ∈ checkable →
        ∀ e' ∈ poolW, ¬ ctxFind fg'.1 e'.2 = some fg'.2) ∧
      poolW = pre ++ e :: post ∧ ctxFind fg.1 e.2 = some fg.2 ∧
      (∀ e' ∈ pre, ¬ ctxFind fg.1 e'.2 = some fg.2) ∧
      drop_content_repoTweet rtT1
        "Just generated a health report for beta at r.io/b".data poolW =
        .ok (pre ++ post) ∧
      (pre ++ post).length + 1 = poolW.length ∧
      ¬ e.1 ∈ (pre ++ post).map Prod.fst :=
  (c6_retraction rtT1 "Just generated a health report for beta at r.io/b".data
      poolW ["beta".data, "r.io/b".data] (by decide) (by decide) (by decide)).2
    (by decide)

/-- Removing an absent element is a no-op. -/
theorem eraseFirst_of_not_mem :
    ∀ (l : List Pat) (p : Pat), ¬ p ∈ l → eraseFirst p l = l := by
  intro l p
  induction l with
  | nil => intro _; rfl
  | cons q l ih =>
    intro h
    have hq : ¬ q = p := fun hh => h (by simp [hh])
    simp only [eraseFirst, if_neg hq]
    rw [ih (fun hh => h (List.mem_cons_of_mem _ hh))]

/-- On a duplicate-free list, removing the first occurrence is filtering. -/
theorem eraseFirst_eq_filter :
    ∀ (l : List Pat) (p : Pat), l.Nodup →
      eraseFirst p l = l.filter (fun q => decide (¬ q = p)) := by
  intro l p
  induction l with
  | nil => intro _; rfl
  | cons q l ih =>
    intro hnd
    obtain ⟨hq, hnd'⟩ := List.nodup_cons.1 hnd
    by_cases hqp : q = p
    · subst hqp
      have hgoal : List.filter (fun a => !decide (a = q)) l = l :=
        List.filter_eq_self.2 (fun a ha => by
          simp only [Bool.not_eq_true', decide_eq_false_iff_not]
          exact fun hh => hq (hh ▸ ha))
      simp [eraseFirst, List.filter_cons, hgoal]
    · simp only [eraseFirst, if_neg hqp, List.filter_cons]
      have hc : (decide (¬ q = p)) = true := by simp [hqp]
      rw [hc]
      simp only [if_true]
      rw [ih hnd']

/-- On a duplicate-free list the removed element is gone. -/
theorem not_mem_eraseFirst (l : List Pat) (p : Pat) (hnd : l.Nodup) :
    ¬ p ∈ eraseFirst p l := by
  rw [eraseFirst_eq_filter l p hnd]
  intro h
  have := (List.mem_filter.1 h).2
  simp at this

/-- `eraseFirst` preserves freedom from duplicates. -/
theorem eraseFirst_nodup (l : List Pat) (p : Pat) (hnd : l.Nodup) :
    (eraseFirst p l).Nodup := by
  rw [eraseFirst_eq_filter l p hnd]
  exact hnd.filter _

/-- `matchesNone` is the negation of "matches some recent message". -/
theorem matchesNone_any (recent : List (List Char)) (p : Pat) :
    matchesNone recent p = !(recent.any (fun m => (p.reM m).isSome)) := by
  induction recent with
  | nil => rfl
  | cons m ms ih =>
    simp only [matchesNone, List.all_cons, List.any_cons, Bool.not_or]
    rw [show ms.all (fun m => (p.reM m).isNone) = matchesNone ms p from rfl, ih]
    cases h : p.reM m <;> simp [h]

/-- The pool after the inner loop of `drop_recent` is the `dropAllOne`
fold (the `result` bookkeeping does not touch the pool). -/
theorem innerDrop_pool (p : Pat) :
    ∀ (ms : List (List Char)) (res : List Pat) (pool : Pool)
      (res' : List Pat) (pool' : Pool),
      innerDrop p ms res pool = .ok (res', pool') →
      dropAllOne p ms pool = .ok pool' := by
  intro ms
  induction ms with
  | nil =>
    intro res pool res' pool' h
    simp only [innerDrop] at h
    have : res = res' ∧ pool = pool' := by simpa using h
    simp [dropAllOne, this.2]
  | cons m ms ih =>
    intro res pool res' pool' h
    simp only [innerDrop] at h
    cases hm : p.reM m with
    | none =>
      rw [hm] at h
      simpa [dropAllOne, hm] using ih res pool res' pool' h
    | some g =>
      rw [hm] at h
      cases hdc : p.dropC m pool with
      | error e => rw [hdc] at h; exact absurd h (by simp)
      | ok pool1 =>
        rw [hdc] at h
        simpa [dropAllOne, hm, hdc] using ih _ pool1 res' pool' h

/-- The inner loop leaves `result` unchanged once the pattern is absent. -/
theorem innerDrop_not_mem (p : Pat) :
    ∀ (ms : List (List Char)) (res : List Pat) (pool : Pool)
      (res' : List Pat) (pool' : Pool), ¬ p ∈ res →
      innerDrop p ms res pool = .ok (res', pool') → res' = res := by
  intro ms
  induction ms with
  | nil =>
    intro res pool res' pool' _ h
    simp only [innerDrop] at h
    have : res = res' ∧ pool = pool' := by simpa using h
    exact this.1.symm
  | cons m ms ih =>
    intro res pool res' pool' hp h
    simp only [innerDrop] at h
    cases hm : p.reM m with
    | none =>
      rw [hm] at h
      exact ih res pool res' pool' hp h
    | some g =>
      rw [hm] at h
      cases hdc : p.dropC m pool with
      | error e => rw [hdc] at h; exact absurd h (by simp)
      | ok pool1 =>
        rw [hdc] at h
        rw [if_neg hp] at h
        exact ih res pool1 res' pool' hp h

/-- The inner loop of `drop_recent` for one pattern: the pattern is removed
from `result` exactly when it matches some recent message (and only its
first occurrence, guarded against double removal). -/
theorem innerDrop_res (p : Pat) :
    ∀ (ms : List (List Char)) (res : List Pat) (pool : Pool)
      (res' : List Pat) (pool' : Pool), res.Nodup →
      innerDrop p ms res pool = .ok (res', pool') →
      res' = if ms.any (fun m => (p.reM m).isSome) = true
        then eraseFirst p res else res := by
  intro ms
  induction ms with
  | nil =>
    intro res pool res' pool' _ h
    simp only [innerDrop] at h
    have : res = res' ∧ pool = pool' := by simpa using h
    simp [this.1.symm]
  | cons m ms ih =>
    intro res pool res' pool' hnd h
    simp only [innerDrop] at h
    cases hm : p.reM m with
    | none =>
      rw [hm] at h
      have := ih res pool res' pool' hnd h
      simpa [List.any_cons, hm] using this
    | some g =>
      rw [hm] at h
      cases hdc : p.dropC m pool with
      | error e => rw [hdc] at h; exact absurd h (by simp)
      | ok pool1 =>
        rw [hdc] at h
        have hcond : (m :: ms).any (fun m => (p.reM m).isSome) = true := by
          simp [List.any_cons, hm]
        rw [if_pos hcond]
        by_cases hp : p ∈ res
        · rw [if_pos hp] at h
          exact innerDrop_not_mem p ms (eraseFirst p res) pool1 res' pool'
            (not_mem_eraseFirst res p hnd) h
        · rw [if_neg hp] at h
          rw [eraseFirst_of_not_mem res p hp]
          exact innerDrop_not_mem p ms res pool1 res' pool' hp h

/-- The pool after `drop_recent` is the `dropAllSpec` fold: `drop_content`
is invoked on the (threaded) pool for every matching (pattern, message)
pair. -/
theorem outerDrop_pool :
    ∀ (ps : List Pat) (recent : List (List Char)) (res : List Pat)
      (pool : Pool) (res' : List Pat) (pool' : Pool),
      outerDrop ps recent res pool = .ok (res', pool') →
      dropAllSpec recent ps pool = .ok pool' := by
  intro ps
  induction ps with
  | nil =>
    intro recent res pool res' pool' h
    simp only [outerDrop] at h
    have heq : res = res' ∧ pool = pool' := by simpa using h
    simp [dropAllSpec, heq.2]
  | cons p ps ih =>
    intro recent res pool res' pool' h
    simp only [outerDrop] at h
    cases hin : innerDrop p recent res pool with
    | error e => rw [hin] at h; exact absurd h (by simp)
    | ok rp =>
      rw [hin] at h
      obtain ⟨res1, pool1⟩ := rp
      have hone := innerDrop_pool p recent res pool res1 pool1 hin
      simpa [dropAllSpec, hone] using ih recent res1 pool1 res' pool' h

/-- The `result` list after the nested loops: each pattern visited that
matches some recent message has its (unique) occurrence filtered out. -/
theorem outerDrop_res :
    ∀ (ps : List Pat) (recent : List (List Char)) (res : List Pat)
      (pool : Pool) (res' : List Pat) (pool' : Pool),
      res.Nodup → ps.Nodup →
      outerDrop ps recent res pool = .ok (res', pool') →
      res' = res.filter
        (fun q => decide (q ∈ ps → matchesNone recent q = true)) := by
  intro ps
  induction ps with
  | nil =>
    intro recent res pool res' pool' _ _ h
    simp only [outerDrop] at h
    have heq : res = res' ∧ pool = pool' := by simpa using h
    rw [← heq.1]
    symm
    apply List.filter_eq_self.2
    intro a _
    simp
  | cons p ps ih =>
    intro recent res pool res' pool' hnd hndps h
    obtain ⟨hp_ps, hndps'⟩ := List.nodup_cons.1 hndps
    simp only [outerDrop] at h
    cases hin : innerDrop p recent res pool with
    | error e => rw [hin] at h; exact absurd h (by simp)
    | ok rp =>
      rw [hin] at h
      obtain ⟨res1, pool1⟩ := rp
      have hres1 := innerDrop_res p recent res pool res1 pool1 hnd hin
      by_cases hany : recent.any (fun m => (p.reM m).isSome) = true
      · rw [if_pos hany] at hres1
        have hnd1 : res1.Nodup := by
          rw [hres1]
          exact eraseFirst_nodup res p hnd
        have hmain := ih recent res1 pool1 res' pool' hnd1 hndps' h
        have hM : matchesNone recent p = false := by
          rw [matchesNone_any, hany]
          rfl
        rw [hmain, hres1, eraseFirst_eq_filter res p hnd, List.filter_filter]
        apply List.filter_congr
        intro q hq
        by_cases hqp : q = p
        · subst hqp
          simp [hM]
        · simp [List.mem_cons, hqp]
      · rw [if_neg hany] at hres1
        have hnd1 : res1.Nodup := by
          rw [hres1]
          exact hnd
        have hmain := ih recent res1 pool1 res' pool' hnd1 hndps' h
        have hM : matchesNone recent p = true := by
          cases hv : recent.any (fun m => (p.reM m).isSome) with
          | true => exact absurd hv hany
          | false => rw [matchesNone_any, hv]; rfl
        rw [hmain, hres1]
        apply List.filter_congr
        intro q hq
        by_cases hqp : q = p
        · subst hqp
          simp [hM]
        · simp [List.mem_cons, hqp]

/-- C5.  Pruning: for distinct pattern instances (as the registry yields)
and a run of `drop_recent` that completes without an exception, the
returned pattern list is exactly the patterns whose matcher matches none of
the recent messages; every pattern matching some recent message is absent
from the result (removed once, without error, however many messages it
matches); and the pool comes out as the `dropAllSpec` fold, i.e.
`drop_content` was invoked on the pool for each matching pair. -/
theorem c5_drop_recent (recent : List (List Char)) (patterns : List Pat)
    (content : Pool) (ps : List Pat) (pool' : Pool)
    (hnd : patterns.Nodup)
    (h : drop_recent recent patterns content = .ok (ps, pool')) :
    ps = patterns.filter (matchesNone recent) ∧
    (∀ p ∈ patterns, ¬ matchesNone recent p = true → ¬ p ∈ ps) ∧
    dropAllSpec recent patterns content = .ok pool' := by
  have h' : outerDrop patterns recent patterns content = .ok (ps, pool') := h
  have h1 := outerDrop_res patterns recent patterns content ps pool' hnd hnd h'
  have hps : ps = patterns.filter (matchesNone recent) := by
    rw [h1]
    apply List.filter_congr
    intro q hq
    simp [hq]
  refine ⟨hps, ?_,
    outerDrop_pool patterns recent patterns content ps pool' h'⟩
  intro p hp hM
  rw [hps]
  simp [List.mem_filter, hM]

/-- Witness for C5: two distinct pattern instances, one recent message that
the `RepoTweet` instance wrote; the base instance survives, the matching
one is pruned, and its record is retracted from the pool. -/
theorem c5_drop_recent_witness :
    ([⟨.base, tpT1, 0⟩] : List Pat) =
      ([⟨.base, tpT1, 0⟩, ⟨.repoTweet, rtT1, 3⟩] : List Pat).filter
        (matchesNone
          ["Just generated a health report for beta at r.io/b".data]) ∧
    (∀ p ∈ ([⟨.base, tpT1, 0⟩, ⟨.repoTweet, rtT1, 3⟩] : List Pat),
      ¬ matchesNone
          ["Just generated a health report for beta at r.io/b".data] p =
        true →
      ¬ p ∈ ([⟨.base, tpT1, 0⟩] : List Pat)) ∧
    dropAllSpec ["Just generated a health report for beta at r.io/b".data]
        ([⟨.base, tpT1, 0⟩, ⟨.repoTweet, rtT1, 3⟩] : List Pat) poolW =
      .ok [("u1", [("uuid", "u1".data), ("name", "alpha".data),
              ("url", "r.io/a".data)]),
           ("u3", [("uuid", "u3".data), ("name", "gamma".data),
              ("url", "r.io/c".data)])] :=
  c5_drop_recent ["Just generated a health report for beta at r.io/b".data]
    [⟨.base, tpT1, 0⟩, ⟨.repoTweet, rtT1, 3⟩] poolW
    [⟨.base, tpT1, 0⟩]
    [("u1", [("uuid", "u1".data), ("name", "alpha".data),
        ("url", "r.io/a".data)]),
     ("u3", [("uuid", "u3".data), ("name", "gamma".data),
        ("url", "r.io/c".data)])]
    (by decide) rfl
